import Mathlib

deriving instance DecidableEq for Except

/-!
Shallow embedding of `dynamic_graph` (`src/lib.rs`), an incremental-computation
graph prototype: an arena of value cells (`InternalGraph.content`), base (input)
cells and derived (computed) cells, a dependency-recording buffer
(`current_execution_deps`), and operations `Graph::new`, `Graph::initial`,
`Graph::compute`, `Node::get`, `SettableNode::set`.

Rust `RefCell` borrow panics and the `panic!("this should never happen")` in
`InternalGraph::with_value` are modelled as `Panic` error values; the set of
cells currently mutably borrowed by an enclosing `with_value` is threaded as
`locks`.  The generic value type `T : Copy` is instantiated at `Int`.  User
closures (Rust `FnMut() -> T` capturing node handles) are embedded as a small
expression language `Body` whose evaluation performs exactly the calls the
closures in the repository perform: reading captured node handles with
`Node::get`, integer arithmetic, and (for the aliasing analysis of
`Graph::compute`) registering a nested derived node.

A ghost event log (`Event`) records each entry into `Node::get` and each
invocation of a stored generator closure; it is instrumentation only and does
not influence any computed value or state.
-/

namespace DynamicGraph

/-- Rust `type ValueRef = usize;` — an index into the arena. -/
abbrev ValueRef := Nat

/-- Rust `struct BaseValue<T> { dirty, epoch, value, deps }`. -/
structure BaseValue where
  dirty : Bool
  epoch : Nat
  value : Int
  deps : List ValueRef
deriving DecidableEq

/-- Embedding of the user closures passed to `Graph::compute`: integer
literals, `node.get()` on a captured handle (`getN r` for the handle with
index `r`), addition, multiplication, and `comp b1 b2` which registers a
nested derived node via `graph.compute(b1)` (discarding the handle) and then
evaluates `b2`. -/
inductive Body where
  | lit : Int → Body
  | getN : ValueRef → Body
  | add : Body → Body → Body
  | mul : Body → Body → Body
  | comp : Body → Body → Body
deriving DecidableEq

/-- Rust `struct ResultValue<T> { dirty, epoch, generator, deps, value }`.
The boxed generator closure built in `Graph::compute` simply calls the user
closure `f` again, so it is embedded as the closure's `Body`. -/
structure ResultValue where
  dirty : Bool
  epoch : Nat
  value : Int
  deps : Option (List ValueRef)
  generator : Body
deriving DecidableEq

/-- Rust `enum Value<T> { Res(ResultValue<T>), Base(BaseValue<T>) }`. -/
inductive Value where
  | res : ResultValue → Value
  | base : BaseValue → Value
deriving DecidableEq

/-- Rust `struct InternalGraph<T>` with its dependency-recording slot and the
arena of cells. -/
structure InternalGraph where
  current_execution_deps : Option (List ValueRef)
  content : List Value
deriving DecidableEq

/-- Rust `Value::value`. -/
def Value.value : Value → Int
  | .res v => v.value
  | .base v => v.value

/-- Rust `Value::set_dirty` (defined in the source but never called). -/
def Value.set_dirty : Value → Bool → Value
  | .res v, d => .res { v with dirty := d }
  | .base v, d => .base { v with dirty := d }

/-- Rust `Value::is_dirty`. -/
def Value.is_dirty : Value → Bool
  | .res v => v.dirty
  | .base v => v.dirty

/-- Rust `Value::set_value`. -/
def Value.set_value : Value → Int → Value
  | .res v, t => .res { v with value := t }
  | .base v, t => .base { v with value := t }

/-- Rust `InternalGraph::replace_deps`: `RefCell::replace` on the recording
slot — returns the old contents, installs `some new`. -/
def InternalGraph.replace_deps (g : InternalGraph) (new : List ValueRef) :
    Option (List ValueRef) × InternalGraph :=
  (g.current_execution_deps, { g with current_execution_deps := some new })

/-- Rust `InternalGraph::take_deps`: `Option::take` on the recording slot. -/
def InternalGraph.take_deps (g : InternalGraph) :
    Option (List ValueRef) × InternalGraph :=
  (g.current_execution_deps, { g with current_execution_deps := none })

/-- Rust `InternalGraph::next_ref`: current arena length. -/
def InternalGraph.next_ref (g : InternalGraph) : ValueRef :=
  g.content.length

/-- Rust `InternalGraph::push_value`: appends a cell, returns `len - 1`. -/
def InternalGraph.push_value (g : InternalGraph) (value : Value) :
    ValueRef × InternalGraph :=
  (g.content.length, { g with content := g.content ++ [value] })

/-- Rust `InternalGraph::set_dirty` — its body in the source is empty, so it
is the identity on the graph. -/
def InternalGraph.set_dirty (g : InternalGraph) (_val_ref : ValueRef) :
    InternalGraph :=
  g

/-- Rust panics reachable in the source, plus a fuel marker that is an
artifact of the fuel-indexed embedding (never a behaviour of the program). -/
inductive Panic where
  | borrowMutError
  | neverHappen
  | fuelOut
deriving DecidableEq

/-- Ghost instrumentation: `getCall r` marks entry into `Node::get` on the
handle `r`; `genInvoke r` marks an invocation of the generator closure stored
in the derived cell `r`. -/
inductive Event where
  | getCall : ValueRef → Event
  | genInvoke : ValueRef → Event
deriving DecidableEq

mutual

/-- Rust `Node::get` (fuel-indexed, with `locks` the set of cells currently
mutably borrowed by an enclosing `with_value`).  Looks the cell up
(`with_value` panics "this should never happen" when out of bounds), panics
with a `RefCell` `BorrowMutError` if the cell is already borrowed, returns a
base cell's value directly, and for a derived cell invokes the stored
generator closure — which simply re-runs the user closure `f`. -/
def Node.get (fuel : Nat) (locks : List ValueRef) (s : InternalGraph)
    (r : ValueRef) : Except Panic Int × InternalGraph × List Event :=
  match fuel with
  | 0 => (.error .fuelOut, s, [])
  | fuel + 1 =>
    match s.content[r]? with
    | none => (.error .neverHappen, s, [.getCall r])
    | some cell =>
      if r ∈ locks then (.error .borrowMutError, s, [.getCall r])
      else
        match cell with
        | .base b => (.ok b.value, s, [.getCall r])
        | .res v =>
          let out := Body.eval fuel (r :: locks) s v.generator
          (out.1, out.2.1, .getCall r :: .genInvoke r :: out.2.2)

/-- Evaluation of a user closure body: the calls the Rust closures make,
with panics propagated and the ghost event log accumulated. -/
def Body.eval (fuel : Nat) (locks : List ValueRef) (s : InternalGraph)
    (b : Body) : Except Panic Int × InternalGraph × List Event :=
  match fuel with
  | 0 => (.error .fuelOut, s, [])
  | fuel + 1 =>
    match b with
    | .lit n => (.ok n, s, [])
    | .getN r => Node.get fuel locks s r
    | .add b1 b2 =>
      match Body.eval fuel locks s b1 with
      | (.error p, s1, e1) => (.error p, s1, e1)
      | (.ok n1, s1, e1) =>
        match Body.eval fuel locks s1 b2 with
        | (.error p, s2, e2) => (.error p, s2, e1 ++ e2)
        | (.ok n2, s2, e2) => (.ok (n1 + n2), s2, e1 ++ e2)
    | .mul b1 b2 =>
      match Body.eval fuel locks s b1 with
      | (.error p, s1, e1) => (.error p, s1, e1)
      | (.ok n1, s1, e1) =>
        match Body.eval fuel locks s1 b2 with
        | (.error p, s2, e2) => (.error p, s2, e1 ++ e2)
        | (.ok n2, s2, e2) => (.ok (n1 * n2), s2, e1 ++ e2)
    | .comp b1 b2 =>
      match Graph.compute fuel locks s b1 with
      | (.error p, s1, e1) => (.error p, s1, e1)
      | (.ok _, s1, e1) =>
        match Body.eval fuel locks s1 b2 with
        | (.error p, s2, e2) => (.error p, s2, e1 ++ e2)
        | (.ok n2, s2, e2) => (.ok n2, s2, e1 ++ e2)

/-- Rust `Graph::compute`: samples `next_ref` and swaps a fresh recording
buffer in, runs the user closure once eagerly, restores/extends the enclosing
buffer exactly as the source does, then pushes the new derived cell (dirty,
epoch 0, seeded value, captured buffer as `deps`, the closure as generator).
`push_value` needs `content.borrow_mut()`, which panics with a `RefCell`
`BorrowMutError` whenever an enclosing `with_value` (any lock) is holding a
shared borrow of `content` — i.e. whenever `compute` runs inside a `get`. -/
def Graph.compute (fuel : Nat) (locks : List ValueRef) (s : InternalGraph)
    (b : Body) : Except Panic ValueRef × InternalGraph × List Event :=
  match fuel with
  | 0 => (.error .fuelOut, s, [])
  | fuel + 1 =>
    let value_ref := s.next_ref
    let (parent_deps, s0) := s.replace_deps []
    match Body.eval fuel locks s0 b with
    | (.error p, s1, e1) => (.error p, s1, e1)
    | (.ok v, s1, e1) =>
      let (my_deps, s2) :=
        match parent_deps with
        | some pd =>
          s1.replace_deps (pd ++ [value_ref])
        | none => s1.take_deps
      let cell : Value := .res
        { dirty := true, epoch := 0, value := v, deps := my_deps,
          generator := b }
      if locks = [] then
        let (_, s3) := s2.push_value cell
        (.ok value_ref, s3, e1)
      else
        (.error .borrowMutError, s2, e1)

end

/-- Rust `Graph::new`. -/
def Graph.new : InternalGraph :=
  { current_execution_deps := none, content := [] }

/-- Rust `Graph::initial`: pushes a base cell with `dirty: true`, `epoch: 0`,
the given value and empty `deps`, returning the handle's `value_ref`. -/
def Graph.initial (s : InternalGraph) (initial : Int) : ValueRef × InternalGraph :=
  let value : Value := .base
    { dirty := true, epoch := 0, value := initial, deps := [] }
  s.push_value value

/-- Rust `SettableNode::set`: `with_value(ref, |v| v.set_value(t))` (panicking
"this should never happen" when the reference is out of bounds) followed by
the no-op `InternalGraph::set_dirty`. -/
def SettableNode.set (s : InternalGraph) (r : ValueRef) (t : Int) :
    Except Panic Unit × InternalGraph :=
  match s.content[r]? with
  | none => (.error .neverHappen, s)
  | some cell =>
    let s1 : InternalGraph := { s with content := s.content.set r (cell.set_value t) }
    (.ok (), s1.set_dirty r)

/-- The dependency list stored in a cell (`deps` field; for a derived cell the
`Option` defaults to the empty list). -/
def Value.depsList : Value → List ValueRef
  | .res v => v.deps.getD []
  | .base v => v.deps

/-- Node `j` transitively reads node `i` through the stored dependency
edges: `j`'s `deps` contains `i`, or contains some `k` that transitively
reads `i`. -/
inductive DependsOn (s : InternalGraph) : ValueRef → ValueRef → Prop where
  | direct {j i c} : s.content[j]? = some c → i ∈ c.depsList → DependsOn s j i
  | step {j k i c} : s.content[j]? = some c → k ∈ c.depsList →
      DependsOn s k i → DependsOn s j i

/-- Every cell of the arena carries `dirty = true`. -/
def AllDirty (s : InternalGraph) : Prop :=
  ∀ c ∈ s.content, c.is_dirty = true

/-- Graph states producible through the public API: `Graph::new`, then any
sequence of `initial`, `compute`, `get` and `set` calls (keeping the state an
operation leaves behind even when the operation panics, as a caller catching
the unwind would). -/
inductive Reachable : InternalGraph → Prop where
  | new : Reachable Graph.new
  | initial (v : Int) {s : InternalGraph} :
      Reachable s → Reachable (Graph.initial s v).2
  | compute (fuel : Nat) (b : Body) {s : InternalGraph} :
      Reachable s → Reachable (Graph.compute fuel [] s b).2.1
  | get (fuel : Nat) (r : ValueRef) {s : InternalGraph} :
      Reachable s → Reachable (Node.get fuel [] s r).2.1
  | set (r : ValueRef) (t : Int) {s : InternalGraph} :
      Reachable s → Reachable (SettableNode.set s r t).2

/-- A closure body that never registers nodes — the shape of every closure
appearing in the repository and in the specification's model of closures
(opaque computations that only read other nodes). -/
def Body.compFree : Body → Bool
  | .lit _ => true
  | .getN _ => true
  | .add a b => a.compFree && b.compFree
  | .mul a b => a.compFree && b.compFree
  | .comp _ _ => false

/-- Every derived cell of the arena stores a closure that never registers
nodes. -/
def InternalGraph.compFree (s : InternalGraph) : Bool :=
  s.content.all fun c =>
    match c with
    | .res rv => rv.generator.compFree
    | .base _ => true

mutual

/-- Modelled from the spec: "a from-scratch re-evaluation of that node's
closure chain (reading only the current values of Base nodes)".  A base cell
yields its current value; a derived cell re-evaluates its closure with every
read resolved from scratch in the same way.  Spec closures only read nodes
and combine values, so the node-registering `comp` form has no from-scratch
meaning and yields `none`. -/
def fromScratchEval (fuel : Nat) (s : InternalGraph) (r : ValueRef) :
    Option Int :=
  match fuel with
  | 0 => none
  | fuel + 1 =>
    match s.content[r]? with
    | none => none
    | some (.base b) => some b.value
    | some (.res v) => fromScratchBody fuel s v.generator

/-- Modelled from the spec: from-scratch evaluation of a closure body, every
read resolved by `fromScratchEval`. -/
def fromScratchBody (fuel : Nat) (s : InternalGraph) (b : Body) : Option Int :=
  match fuel with
  | 0 => none
  | fuel + 1 =>
    match b with
    | .lit n => some n
    | .getN r => fromScratchEval fuel s r
    | .add b1 b2 =>
      match fromScratchBody fuel s b1 with
      | none => none
      | some n1 =>
        match fromScratchBody fuel s b2 with
        | none => none
        | some n2 => some (n1 + n2)
    | .mul b1 b2 =>
      match fromScratchBody fuel s b1 with
      | none => none
      | some n1 =>
        match fromScratchBody fuel s b2 with
        | none => none
        | some n2 => some (n1 * n2)
    | .comp _ _ => none

end

/-!
Concrete scenario from the specification (§8, diamond + mutation), built
through the embedded API: `a = input(5)` (ref 0), `b = input(4)` (ref 1),
`c = compute(|| a.get() + 6)` (ref 2), `d = compute(|| b.get() + c.get())`
(ref 3), `e = compute(|| b.get() * d.get())` (ref 4).
-/

/-- State after `a = input(5)`. -/
def stA : InternalGraph := (Graph.initial Graph.new 5).2

/-- State after `a.set(7)` on `stA` (used to witness the invalidation claim). -/
def stAset : InternalGraph := (SettableNode.set stA 0 7).2

/-- State after `b = input(4)`. -/
def stAB : InternalGraph := (Graph.initial stA 4).2

/-- Result triple of `c = compute(|| a.get() + 6)`. -/
def compC : Except Panic ValueRef × InternalGraph × List Event :=
  Graph.compute 99 [] stAB (.add (.getN 0) (.lit 6))

/-- State after `c = compute(|| a.get() + 6)`. -/
def stABC : InternalGraph := compC.2.1

/-- Result triple of `d = compute(|| b.get() + c.get())`. -/
def compD : Except Panic ValueRef × InternalGraph × List Event :=
  Graph.compute 99 [] stABC (.add (.getN 1) (.getN 2))

/-- State after `d`. -/
def stABCD : InternalGraph := compD.2.1

/-- Result triple of `e = compute(|| b.get() * d.get())`. -/
def compE : Except Panic ValueRef × InternalGraph × List Event :=
  Graph.compute 99 [] stABCD (.mul (.getN 1) (.getN 3))

/-- State after `e`. -/
def stFull : InternalGraph := compE.2.1

/-- State after `a.set(2)` on the full diamond. -/
def stSet : InternalGraph := (SettableNode.set stFull 0 2).2

/-- A hand-built one-cell graph whose derived cell's closure reads the cell
itself (`generator = getN 0`): the self-reading topology of the cyclic
dependency claim. -/
def cyclicState : InternalGraph :=
  { current_execution_deps := none,
    content := [.res { dirty := true, epoch := 0, value := 0, deps := some [],
                       generator := .getN 0 }] }

/-- Unfolding of a successful top-level `Graph::compute`: the closure body is
evaluated exactly once, under a freshly installed recording buffer, and the
new derived cell — dirty, epoch 0, seeded with the closure's result, its
`deps` the buffer contents left by that single evaluation, its generator the
closure itself — is appended after the evaluation; the returned handle
carries the arena length sampled before the evaluation. -/
theorem compute_ok_spec (fuel : Nat) (s : InternalGraph) (b : Body)
    (r : ValueRef) (s' : InternalGraph) (ev : List Event)
    (h : Graph.compute (fuel + 1) [] s b = (.ok r, s', ev)) :
    ∃ v s1,
      Body.eval fuel [] { s with current_execution_deps := some [] } b
        = (.ok v, s1, ev) ∧
      r = s.content.length ∧
      s'.content = s1.content ++
        [.res { dirty := true, epoch := 0, value := v,
                deps := s1.current_execution_deps, generator := b }] := by
  rw [Graph.compute] at h
  simp only [InternalGraph.replace_deps, InternalGraph.take_deps,
    InternalGraph.next_ref, InternalGraph.push_value] at h
  rcases hev : Body.eval fuel [] { s with current_execution_deps := some [] } b
    with ⟨o, s1, e1⟩
  rw [hev] at h
  cases o with
  | error p => simp at h
  | ok v =>
    refine ⟨v, s1, ?_⟩
    cases hpd : s.current_execution_deps <;> rw [hpd] at h <;>
      simp only [if_pos rfl] at h <;>
      obtain ⟨h1, h2, h3⟩ := by
        simpa using h
    · exact ⟨by rw [h3], h1.symm, by rw [← h2]⟩
    · exact ⟨by rw [h3], h1.symm, by rw [← h2]⟩

/-- Arena monotonicity: every interpreter operation only appends cells to the
arena, and every appended cell is created with `dirty = true`. -/
theorem eval_content_mono (fuel : Nat) :
    (∀ locks s r, ∃ d, (Node.get fuel locks s r).2.1.content = s.content ++ d ∧
        ∀ c ∈ d, c.is_dirty = true) ∧
    (∀ locks s b, ∃ d, (Body.eval fuel locks s b).2.1.content = s.content ++ d ∧
        ∀ c ∈ d, c.is_dirty = true) ∧
    (∀ locks s b, ∃ d, (Graph.compute fuel locks s b).2.1.content = s.content ++ d ∧
        ∀ c ∈ d, c.is_dirty = true) := by
  induction fuel with
  | zero =>
    refine ⟨?_, ?_, ?_⟩ <;> intro locks s x <;>
      exact ⟨[], by simp [Node.get, Body.eval, Graph.compute], by simp⟩
  | succ n ih =>
    obtain ⟨ihg, ihb, ihc⟩ := ih
    refine ⟨?_, ?_, ?_⟩
    · intro locks s r
      cases hc : s.content[r]? with
      | none => exact ⟨[], by simp [Node.get, hc], by simp⟩
      | some cell =>
        by_cases hl : r ∈ locks
        · exact ⟨[], by simp [Node.get, hc, hl], by simp⟩
        · cases cell with
          | base bv => exact ⟨[], by simp [Node.get, hc, hl], by simp⟩
          | res rv =>
            obtain ⟨d, hd, hdd⟩ := ihb (r :: locks) s rv.generator
            exact ⟨d, by simp only [Node.get, hc, hl]; simpa using hd, hdd⟩
    · intro locks s b
      cases b with
      | lit n0 => exact ⟨[], by simp [Body.eval], by simp⟩
      | getN r =>
        obtain ⟨d, hd, hdd⟩ := ihg locks s r
        exact ⟨d, by simpa [Body.eval] using hd, hdd⟩
      | add b1 b2 =>
        obtain ⟨d1, hd1, hdd1⟩ := ihb locks s b1
        rcases h1 : Body.eval n locks s b1 with ⟨o1, s1, e1⟩
        rw [h1] at hd1
        simp only at hd1
        cases o1 with
        | error p => exact ⟨d1, by simp [Body.eval, h1]; exact hd1, hdd1⟩
        | ok n1 =>
          obtain ⟨d2, hd2, hdd2⟩ := ihb locks s1 b2
          rcases h2 : Body.eval n locks s1 b2 with ⟨o2, s2, e2⟩
          rw [h2] at hd2
          simp only at hd2
          refine ⟨d1 ++ d2, ?_, ?_⟩
          · cases o2 <;>
              simp [Body.eval, h1, h2, hd2, hd1, List.append_assoc]
          · intro c hc
            rcases List.mem_append.mp hc with h | h
            exacts [hdd1 c h, hdd2 c h]
      | mul b1 b2 =>
        obtain ⟨d1, hd1, hdd1⟩ := ihb locks s b1
        rcases h1 : Body.eval n locks s b1 with ⟨o1, s1, e1⟩
        rw [h1] at hd1
        simp only at hd1
        cases o1 with
        | error p => exact ⟨d1, by simp [Body.eval, h1]; exact hd1, hdd1⟩
        | ok n1 =>
          obtain ⟨d2, hd2, hdd2⟩ := ihb locks s1 b2
          rcases h2 : Body.eval n locks s1 b2 with ⟨o2, s2, e2⟩
          rw [h2] at hd2
          simp only at hd2
          refine ⟨d1 ++ d2, ?_, ?_⟩
          · cases o2 <;>
              simp [Body.eval, h1, h2, hd2, hd1, List.append_assoc]
          · intro c hc
            rcases List.mem_append.mp hc with h | h
            exacts [hdd1 c h, hdd2 c h]
      | comp b1 b2 =>
        obtain ⟨d1, hd1, hdd1⟩ := ihc locks s b1
        rcases h1 : Graph.compute n locks s b1 with ⟨o1, s1, e1⟩
        rw [h1] at hd1
        simp only at hd1
        cases o1 with
        | error p => exact ⟨d1, by simp [Body.eval, h1]; exact hd1, hdd1⟩
        | ok rr =>
          obtain ⟨d2, hd2, hdd2⟩ := ihb locks s1 b2
          rcases h2 : Body.eval n locks s1 b2 with ⟨o2, s2, e2⟩
          rw [h2] at hd2
          simp only at hd2
          refine ⟨d1 ++ d2, ?_, ?_⟩
          · cases o2 <;>
              simp [Body.eval, h1, h2, hd2, hd1, List.append_assoc]
          · intro c hc
            rcases List.mem_append.mp hc with h | h
            exacts [hdd1 c h, hdd2 c h]
    · intro locks s b
      obtain ⟨d1, hd1, hdd1⟩ :=
        ihb locks { s with current_execution_deps := some [] } b
      rcases h1 : Body.eval n locks { s with current_execution_deps := some [] } b
        with ⟨o1, s1, e1⟩
      rw [h1] at hd1
      simp only at hd1
      cases o1 with
      | error p =>
        exact ⟨d1,
          by simp [Graph.compute, InternalGraph.replace_deps, h1]; exact hd1,
          hdd1⟩
      | ok v =>
        by_cases hl : locks = []
        · subst hl
          refine ⟨d1 ++ [Value.res ⟨true, 0, v, s1.current_execution_deps, b⟩], ?_, ?_⟩
          · cases hpd : s.current_execution_deps <;>
              simp [Graph.compute, InternalGraph.replace_deps,
                InternalGraph.take_deps, InternalGraph.push_value, h1, hpd,
                hd1, List.append_assoc]
          · intro c hc
            rcases List.mem_append.mp hc with h | h
            · exact hdd1 c h
            · simp at h; subst h; rfl
        · refine ⟨d1, ?_, hdd1⟩
          cases hpd : s.current_execution_deps <;>
            simp [Graph.compute, InternalGraph.replace_deps,
              InternalGraph.take_deps, h1, hl, hpd, hd1]

/-- Every cell of a state reachable through the public API is dirty: both
`initial` and `compute` create their cell with `dirty = true`, no operation
ever writes a dirty flag (`InternalGraph::set_dirty` has an empty body and
`Value::set_dirty` is never called), and `set_value` preserves the flag. -/
theorem reachable_allDirty {s : InternalGraph} (h : Reachable s) : AllDirty s := by
  induction h with
  | new => intro c hc; simp [Graph.new] at hc
  | initial v hprev ih =>
    intro c hc
    simp [Graph.initial, InternalGraph.push_value] at hc
    rcases hc with hc | hc
    · exact ih c hc
    · subst hc; rfl
  | compute fuel b hprev ih =>
    intro c hc
    obtain ⟨d, hd, hdd⟩ := (eval_content_mono fuel).2.2 [] _ b
    rw [hd] at hc
    rcases List.mem_append.mp hc with h | h
    exacts [ih c h, hdd c h]
  | get fuel r hprev ih =>
    intro c hc
    obtain ⟨d, hd, hdd⟩ := (eval_content_mono fuel).1 [] _ r
    rw [hd] at hc
    rcases List.mem_append.mp hc with h | h
    exacts [ih c h, hdd c h]
  | set r t hprev ih =>
    intro c hc
    rename_i s0
    cases hcr : s0.content[r]? with
    | none => simp [SettableNode.set, hcr] at hc; exact ih c hc
    | some cell =>
      simp [SettableNode.set, hcr, InternalGraph.set_dirty] at hc
      rcases List.mem_or_eq_of_mem_set hc with h | h
      · exact ih c h
      · subst h
        have hd := ih _ (List.getElem?_mem hcr)
        cases cell <;> simpa [Value.set_value, Value.is_dirty] using hd

/-- C1: on every API-reachable graph, after a successful `SettableNode::set`
on a Base node, every Derived node that transitively reads that node through
the stored dependency edges is Dirty, and every node not reading it has its
dirty flag unchanged.  The theorem holds, but vacuously strongly: in this
code every reachable cell is permanently dirty (`InternalGraph::set_dirty`,
the invalidation hook `set` calls, has an empty body, and nothing ever clears
a dirty flag), so the reachable readers are dirty and `set` changes no dirty
flag anywhere. -/
theorem C1_set_invalidation (s : InternalGraph) (r : ValueRef) (bv : BaseValue)
    (t : Int) (s' : InternalGraph)
    (hreach : Reachable s)
    (hbase : s.content[r]? = some (.base bv))
    (hset : SettableNode.set s r t = (.ok (), s')) :
    (∀ j rv, s'.content[j]? = some (.res rv) → DependsOn s' j r →
        rv.dirty = true) ∧
    (∀ j, ¬ DependsOn s' j r →
        (s'.content[j]?).map Value.is_dirty = (s.content[j]?).map Value.is_dirty) := by
  have hall : AllDirty s := reachable_allDirty hreach
  have hs' : s' = { s with content := s.content.set r ((Value.base bv).set_value t) } := by
    simp [SettableNode.set, hbase, InternalGraph.set_dirty] at hset
    exact hset.symm
  subst hs'
  constructor
  · intro j rv hj _hdep
    have hmem : Value.res rv ∈ s.content.set r ((Value.base bv).set_value t) :=
      List.getElem?_mem hj
    rcases List.mem_or_eq_of_mem_set hmem with h | h
    · have := hall _ h
      simpa [Value.is_dirty] using this
    · simp [Value.set_value] at h
  · intro j _hdep
    by_cases hjr : j = r
    · subst hjr
      have hlt : j < s.content.length := by
        rcases List.getElem?_eq_some_iff.mp hbase with ⟨hl, _⟩
        exact hl
      simp [List.getElem?_set_self hlt, hbase, Value.set_value, Value.is_dirty]
    · simp [List.getElem?_set_ne (fun h => hjr h.symm)]

/-- C2: the claim says a `get` on a Dirty derived node re-runs the closure,
writes the new value into the cell, clears the dirty flag, and that between
two consecutive `get` calls with no intervening `set` the closure runs at
most once in total.  Evaluating the code at the failing input
(`a = input(5)`, `c = compute(|| a.get() + 6)`, then `c.get()` twice): the
first `get` returns 11 but leaves the whole state unchanged — cell 2 still
has `dirty = true`, so nothing was cached and the flag was not cleared — its
ghost log records one generator invocation, and because the state is
unchanged the second consecutive `get` is the identical call, so the two
`get` calls invoke the closure twice in total, not at most once. -/
theorem C2_failing_input_eval :
    (Node.get 99 [] stABC 2).1 = .ok 11 ∧
    (Node.get 99 [] stABC 2).2.1 = stABC ∧
    stABC.content[2]?.map Value.is_dirty = some true ∧
    ((Node.get 99 [] stABC 2).2.1.content[2]?.map Value.is_dirty = some true) ∧
    (Node.get 99 [] stABC 2).2.2.count (.genInvoke 2) = 1 ∧
    ((Node.get 99 [] stABC 2).2.2
      ++ (Node.get 99 [] stABC 2).2.2).count (.genInvoke 2) = 2 := by
  decide

/-- C4: the claim says every `Node.get` appends the node's reference to the
currently installed recording buffer and that a derived node's `deps` is
exactly the set of nodes read during its most recent evaluation.  Evaluating
the code at the failing input (`a = input(5)`, `c = compute(|| a.get() + 6)`):
during `c`'s construction a fresh buffer is installed and `a.get()` runs (the
ghost log of the construction contains the call on node 0), yet the recorded
`deps` of the new derived cell is the empty list, and a `get` executed while
a buffer is installed leaves the buffer exactly as it was. -/
theorem C4_failing_input_eval :
    Event.getCall 0 ∈ compC.2.2 ∧
    stABC.content[2]? =
      some (.res { dirty := true, epoch := 0, value := 11,
                   deps := some [], generator := .add (.getN 0) (.lit 6) }) ∧
    (Node.get 99 []
        { stABC with current_execution_deps := some [] } 0).2.1
      = { stABC with current_execution_deps := some [] } := by
  decide

/-- C5 counterexample: the claim says `input`/`initial` registers a Base node
that is Clean (`dirty == false`).  At the concrete input `Graph::new`
followed by `initial(5)`, the registered cell's dirty flag is not `false`
(the source writes `dirty: true`). -/
theorem C5_counterexample :
    ¬ ((Graph.initial Graph.new 5).2.content[(Graph.initial Graph.new 5).1]?
        |>.map Value.is_dirty) = some false := by
  decide

/-- C5 amended: for every value `v`, `initial` registers a new Base node
holding `v` with `dirty == true` (not Clean), appends it at the end of the
arena, leaves the recording buffer alone, and returns a handle whose
reference is the new cell's index.  (The handle is a plain `Node`; the source
defines `SettableNode` but never constructs one.) -/
theorem C5_initial_registers_dirty_base (s : InternalGraph) (v : Int) :
    (Graph.initial s v).1 = s.content.length ∧
    (Graph.initial s v).2.content =
      s.content ++ [.base { dirty := true, epoch := 0, value := v, deps := [] }] ∧
    (Graph.initial s v).2.current_execution_deps = s.current_execution_deps :=
  ⟨rfl, rfl, rfl⟩

/-- C7: the claim says a `get` that makes a derived node read itself while it
is being evaluated fails with a reported, distinguishable
CyclicDependency/ReentrantAccess error.  Evaluating the code at the failing
input (a graph whose derived cell 0 has generator `getN 0`): the `get` is
detected and aborts — but through a `RefCell` `BorrowMutError` panic (the
second mutable borrow of the same cell inside `with_value`), not through an
error value the caller can receive; `get`'s return type has no error path.
The state is left unchanged, so the cell is still Dirty, and the ghost log
shows the finite call chain (no unbounded recursion). -/
theorem C7_failing_input_eval :
    Node.get 99 [] cyclicState 0 =
      (.error .borrowMutError, cyclicState,
        [.getCall 0, .genInvoke 0, .getCall 0]) ∧
    cyclicState.content[0]?.map Value.is_dirty = some true := by
  decide

/-- C8: the diamond-with-mutation scenario.  With `a = input(5)`,
`b = input(4)`, `c = compute(|| a.get() + 6)`, `d = compute(|| b.get() +
c.get())`, `e = compute(|| b.get() * d.get())`, the call `e.get()` returns
60; after `a.set(2)` (which succeeds), `e.get()` returns 48. -/
theorem C8_diamond_mutation :
    (Node.get 99 [] stFull 4).1 = .ok 60 ∧
    (SettableNode.set stFull 0 2).1 = .ok () ∧
    (Node.get 99 [] stSet 4).1 = .ok 48 := by
  decide

/-- Witness for C1 at a concrete input: the reachable one-node graph
`input(5)`, with `set(7)` applied to its base node. -/
theorem C1_witness :
    (∀ j rv, stAset.content[j]? = some (.res rv) → DependsOn stAset j 0 →
        rv.dirty = true) ∧
    (∀ j, ¬ DependsOn stAset j 0 →
        (stAset.content[j]?).map Value.is_dirty
          = (stA.content[j]?).map Value.is_dirty) :=
  C1_set_invalidation stA 0 ⟨true, 0, 5, []⟩ 7 stAset
    (Reachable.initial 5 Reachable.new) (by decide) (by decide)

/-- C6: a successful top-level `Graph.compute` registers a new Derived node
and evaluates the closure exactly once, immediately, at construction: the
new cell is appended with `dirty = true` (Dirty), its cached value is seeded
with the result of that single eager evaluation, its dependency list is
established from it (the recording buffer that evaluation leaves behind),
and the events of `compute` are exactly the events of that one evaluation. -/
theorem C6_compute_eager_seed (fuel : Nat) (s : InternalGraph) (b : Body)
    (r : ValueRef) (s' : InternalGraph) (ev : List Event)
    (h : Graph.compute (fuel + 1) [] s b = (.ok r, s', ev)) :
    ∃ v s1,
      Body.eval fuel [] { s with current_execution_deps := some [] } b
        = (.ok v, s1, ev) ∧
      r = s.content.length ∧
      s'.content = s1.content ++
        [.res { dirty := true, epoch := 0, value := v,
                deps := s1.current_execution_deps, generator := b }] :=
  compute_ok_spec fuel s b r s' ev h

/-- Witness for C6 at the concrete construction of `c = compute(|| a.get() +
6)` on the two-input graph. -/
theorem C6_witness :
    ∃ v s1,
      Body.eval 98 [] { stAB with current_execution_deps := some [] }
          (.add (.getN 0) (.lit 6))
        = (.ok v, s1, [Event.getCall 0]) ∧
      (2 : ValueRef) = stAB.content.length ∧
      stABC.content = s1.content ++
        [.res { dirty := true, epoch := 0, value := v,
                deps := s1.current_execution_deps,
                generator := .add (.getN 0) (.lit 6) }] :=
  C6_compute_eager_seed 98 stAB (.add (.getN 0) (.lit 6)) 2 stABC
    [Event.getCall 0] (by decide)

/-- C10: the handle returned by a successful top-level `Graph.compute`
carries the arena length sampled before the closure ran, while the new cell
is appended only after the closure returns: with `d` the cells the closure
itself pushed, the new cell sits at index `s.content.length + d.length`, so
the handle resolves to the newly created cell exactly when the closure
registered no nodes, and otherwise aliases the first closure-allocated
cell. -/
theorem C10_compute_handle_aliasing (fuel : Nat) (s : InternalGraph) (b : Body)
    (r : ValueRef) (s' : InternalGraph) (ev : List Event)
    (h : Graph.compute (fuel + 1) [] s b = (.ok r, s', ev)) :
    r = s.content.length ∧
    ∃ v s1 d,
      Body.eval fuel [] { s with current_execution_deps := some [] } b
        = (.ok v, s1, ev) ∧
      s1.content = s.content ++ d ∧
      s'.content = s.content ++ d ++
        [.res { dirty := true, epoch := 0, value := v,
                deps := s1.current_execution_deps, generator := b }] ∧
      ((s.content.length + d.length = r) ↔ d = []) ∧
      (d = [] → s'.content[r]? =
        some (.res { dirty := true, epoch := 0, value := v,
                     deps := s1.current_execution_deps, generator := b })) ∧
      (d ≠ [] → s'.content[r]? = d.head?) := by
  obtain ⟨v, s1, hev, hr, hs'⟩ := compute_ok_spec fuel s b r s' ev h
  obtain ⟨d, hd, _⟩ := (eval_content_mono fuel).2.1 []
    { s with current_execution_deps := some [] } b
  rw [hev] at hd
  simp only at hd
  subst hr
  refine ⟨rfl, v, s1, d, hev, hd, ?_, ?_, ?_, ?_⟩
  · rw [hs', hd]
  · constructor
    · intro hlen
      have hz : d.length = 0 := by omega
      exact List.length_eq_zero.mp hz
    · intro hd0; subst hd0; simp
  · intro hd0
    subst hd0
    rw [hs', hd]
    simp
  · intro hne
    rw [hs', hd, List.append_assoc, List.getElem?_append_right (le_refl _)]
    simp only [Nat.sub_self]
    rcases d with _ | ⟨c0, d2⟩
    · exact absurd rfl hne
    · simp

/-- Witness for C10 at a concrete input whose closure registers a node: the
outer `compute(|| \x7b compute(|| 1); 2 \x7d)` on the empty graph returns a
handle that aliases the inner, closure-allocated cell. -/
theorem C10_witness :
    (0 : ValueRef) = Graph.new.content.length ∧
    ∃ v s1 d,
      Body.eval 98 [] { Graph.new with current_execution_deps := some [] }
          (.comp (.lit 1) (.lit 2))
        = (.ok v, s1, []) ∧
      s1.content = Graph.new.content ++ d ∧
      (Graph.compute 99 [] Graph.new (.comp (.lit 1) (.lit 2))).2.1.content
        = Graph.new.content ++ d ++
          [.res { dirty := true, epoch := 0, value := v,
                  deps := s1.current_execution_deps,
                  generator := .comp (.lit 1) (.lit 2) }] ∧
      ((Graph.new.content.length + d.length = 0) ↔ d = []) ∧
      (d = [] →
        (Graph.compute 99 [] Graph.new (.comp (.lit 1) (.lit 2))).2.1.content[(0 : ValueRef)]? =
          some (.res { dirty := true, epoch := 0, value := v,
                       deps := s1.current_execution_deps,
                       generator := .comp (.lit 1) (.lit 2) })) ∧
      (d ≠ [] →
        (Graph.compute 99 [] Graph.new (.comp (.lit 1) (.lit 2))).2.1.content[(0 : ValueRef)]? =
          d.head?) :=
  C10_compute_handle_aliasing 98 Graph.new (.comp (.lit 1) (.lit 2)) 0
    (Graph.compute 99 [] Graph.new (.comp (.lit 1) (.lit 2))).2.1 [] (by decide)

/-- Successful runs never mutate the graph: a `get` holds the shared borrow
of `content` for its whole run, so any closure-triggered `compute` would
panic at `push_value`; hence a `get` (or any body evaluation under a lock)
that returns `ok` leaves the state — cells and recording buffer alike —
exactly as it found it, and a `compute` under a lock never returns `ok`. -/
theorem eval_ok_frame (fuel : Nat) :
    (∀ locks s r v s2 ev, Node.get fuel locks s r = (.ok v, s2, ev) → s2 = s) ∧
    (∀ locks s b v s2 ev, locks ≠ [] →
        Body.eval fuel locks s b = (.ok v, s2, ev) → s2 = s) ∧
    (∀ locks s b out s2 ev, locks ≠ [] →
        Graph.compute fuel locks s b = (out, s2, ev) → ∃ p, out = .error p) := by
  induction fuel with
  | zero =>
    refine ⟨?_, ?_, ?_⟩
    · intro locks s r v s2 ev h
      simp [Node.get] at h
    · intro locks s b v s2 ev hl h
      simp [Body.eval] at h
    · intro locks s b out s2 ev hl h
      simp [Graph.compute] at h
      exact ⟨.fuelOut, h.1.symm⟩
  | succ n ih =>
    obtain ⟨ihg, ihb, ihc⟩ := ih
    refine ⟨?_, ?_, ?_⟩
    · intro locks s r v s2 ev h
      cases hc : s.content[r]? with
      | none => simp [Node.get, hc] at h
      | some cell =>
        by_cases hl : r ∈ locks
        · simp [Node.get, hc, hl] at h
        · cases cell with
          | base bv =>
            simp [Node.get, hc, hl] at h
            exact h.2.1.symm
          | res rv =>
            simp only [Node.get, hc, hl] at h
            rcases hev : Body.eval n (r :: locks) s rv.generator with ⟨o, s1, e1⟩
            rw [hev] at h
            simp [hl] at h
            obtain ⟨h1, h2, h3⟩ := h
            exact ihb (r :: locks) s rv.generator v s2 e1 (by simp)
              (by rw [hev, h1, h2])
    · intro locks s b v s2 ev hl h
      cases b with
      | lit n0 => simp [Body.eval] at h; exact h.2.1.symm
      | getN r =>
        simp only [Body.eval] at h
        exact ihg locks s r v s2 ev h
      | add b1 b2 =>
        simp only [Body.eval] at h
        rcases h1 : Body.eval n locks s b1 with ⟨o1, s1, e1⟩
        rw [h1] at h
        cases o1 with
        | error p => simp at h
        | ok n1 =>
          simp only at h
          rcases h2 : Body.eval n locks s1 b2 with ⟨o2, s2b, e2⟩
          rw [h2] at h
          cases o2 with
          | error p => simp at h
          | ok n2 =>
            simp at h
            obtain ⟨hv, hs2, hev2⟩ := h
            rw [← hs2]
            rw [ihb locks s1 b2 n2 s2b e2 hl h2, ihb locks s b1 n1 s1 e1 hl h1]
      | mul b1 b2 =>
        simp only [Body.eval] at h
        rcases h1 : Body.eval n locks s b1 with ⟨o1, s1, e1⟩
        rw [h1] at h
        cases o1 with
        | error p => simp at h
        | ok n1 =>
          simp only at h
          rcases h2 : Body.eval n locks s1 b2 with ⟨o2, s2b, e2⟩
          rw [h2] at h
          cases o2 with
          | error p => simp at h
          | ok n2 =>
            simp at h
            obtain ⟨hv, hs2, hev2⟩ := h
            rw [← hs2]
            rw [ihb locks s1 b2 n2 s2b e2 hl h2, ihb locks s b1 n1 s1 e1 hl h1]
      | comp b1 b2 =>
        simp only [Body.eval] at h
        rcases h1 : Graph.compute n locks s b1 with ⟨o1, s1, e1⟩
        obtain ⟨p, hp⟩ := ihc locks s b1 o1 s1 e1 hl h1
        subst hp
        rw [h1] at h
        simp at h
    · intro locks s b out s2 ev hl h
      simp only [Graph.compute, InternalGraph.replace_deps,
        InternalGraph.take_deps, InternalGraph.next_ref,
        InternalGraph.push_value] at h
      rcases h1 : Body.eval n locks { s with current_execution_deps := some [] } b
        with ⟨o1, s1, e1⟩
      rw [h1] at h
      cases o1 with
      | error p =>
        simp at h
        exact ⟨p, h.1.symm⟩
      | ok v =>
        simp [hl] at h
        exact ⟨.borrowMutError, h.1.symm⟩

/-- C9: a `Node::get` that returns leaves the entire graph state unchanged —
every cell (stored value, dirty flag, deps list) and the dependency-recording
buffer are exactly as before the call; `get` performs no caching and no
recording. -/
theorem C9_get_leaves_state_unchanged (fuel : Nat) (s : InternalGraph)
    (r : ValueRef) (v : Int) (s2 : InternalGraph) (ev : List Event)
    (h : Node.get fuel [] s r = (.ok v, s2, ev)) :
    s2.content = s.content ∧
    s2.current_execution_deps = s.current_execution_deps := by
  rw [(eval_ok_frame fuel).1 [] s r v s2 ev h]
  exact ⟨rfl, rfl⟩

/-- Witness for C9 at a concrete input: `c.get()` on the three-node graph. -/
theorem C9_witness :
    (Node.get 99 [] stABC 2).2.1.content = stABC.content ∧
    (Node.get 99 [] stABC 2).2.1.current_execution_deps
      = stABC.current_execution_deps :=
  C9_get_leaves_state_unchanged 99 stABC 2 11 (Node.get 99 [] stABC 2).2.1
    [Event.getCall 2, Event.genInvoke 2, Event.getCall 0] (by decide)


/-- In a graph all of whose stored closures are allocation-free, the closure
of any derived cell is allocation-free. -/
theorem compFree_generator {s : InternalGraph} {r : ValueRef} {rv : ResultValue}
    (hs : s.compFree = true) (h : s.content[r]? = some (.res rv)) :
    rv.generator.compFree = true := by
  have hmem : Value.res rv ∈ s.content := List.getElem?_mem h
  have := List.all_eq_true.mp hs _ hmem
  simpa using this

/-- Evaluation of allocation-free closures never changes the state: the only
state mutations in the interpreter sit inside `Graph.compute`. -/
theorem eval_compFree_frame (fuel : Nat) :
    (∀ locks s r, s.compFree = true → (Node.get fuel locks s r).2.1 = s) ∧
    (∀ locks s b, s.compFree = true → b.compFree = true →
        (Body.eval fuel locks s b).2.1 = s) := by
  induction fuel with
  | zero =>
    constructor
    · intro locks s r _; simp [Node.get]
    · intro locks s b _ _; simp [Body.eval]
  | succ n ih =>
    obtain ⟨ihg, ihb⟩ := ih
    constructor
    · intro locks s r hs
      cases hc : s.content[r]? with
      | none => simp [Node.get, hc]
      | some cell =>
        by_cases hl : r ∈ locks
        · simp [Node.get, hc, hl]
        · cases cell with
          | base bv => simp [Node.get, hc, hl]
          | res rv =>
            simp [Node.get, hc, hl,
              ihb (r :: locks) s rv.generator hs (compFree_generator hs hc)]
    · intro locks s b hs hb
      cases b with
      | lit n0 => simp [Body.eval]
      | getN r => simp [Body.eval, ihg locks s r hs]
      | add b1 b2 =>
        simp [Body.compFree] at hb
        obtain ⟨hb1, hb2⟩ := hb
        have h1 := ihb locks s b1 hs hb1
        rcases hev1 : Body.eval n locks s b1 with ⟨o1, s1, e1⟩
        rw [hev1] at h1
        simp only at h1
        have h2 := ihb locks s b2 hs hb2
        rcases hev2 : Body.eval n locks s b2 with ⟨o2, s2, e2⟩
        rw [hev2] at h2
        simp only at h2
        cases o1 <;> cases o2 <;> simp [Body.eval, hev1, h1, hev2, h2]
      | mul b1 b2 =>
        simp [Body.compFree] at hb
        obtain ⟨hb1, hb2⟩ := hb
        have h1 := ihb locks s b1 hs hb1
        rcases hev1 : Body.eval n locks s b1 with ⟨o1, s1, e1⟩
        rw [hev1] at h1
        simp only at h1
        have h2 := ihb locks s b2 hs hb2
        rcases hev2 : Body.eval n locks s b2 with ⟨o2, s2, e2⟩
        rw [hev2] at h2
        simp only at h2
        cases o1 <;> cases o2 <;> simp [Body.eval, hev1, h1, hev2, h2]
      | comp b1 b2 => simp [Body.compFree] at hb

/-- Correspondence with the specification model: on graphs whose stored
closures are allocation-free, any `ok` result of the interpreter equals the
from-scratch evaluation of the same node (or body) on the same state. -/
theorem eval_fromScratch (fuel : Nat) :
    (∀ locks s r v s2 ev, s.compFree = true →
        Node.get fuel locks s r = (.ok v, s2, ev) →
        fromScratchEval fuel s r = some v) ∧
    (∀ locks s b v s2 ev, s.compFree = true → b.compFree = true →
        Body.eval fuel locks s b = (.ok v, s2, ev) →
        fromScratchBody fuel s b = some v) := by
  induction fuel with
  | zero =>
    constructor
    · intro locks s r v s2 ev hs h; simp [Node.get] at h
    · intro locks s b v s2 ev hs hb h; simp [Body.eval] at h
  | succ n ih =>
    obtain ⟨ihg, ihb⟩ := ih
    constructor
    · intro locks s r v s2 ev hs h
      cases hc : s.content[r]? with
      | none => simp [Node.get, hc] at h
      | some cell =>
        by_cases hl : r ∈ locks
        · simp [Node.get, hc, hl] at h
        · cases cell with
          | base bv =>
            simp [Node.get, hc, hl] at h
            simp [fromScratchEval, hc, h.1]
          | res rv =>
            simp only [Node.get, hc, hl] at h
            rcases hev : Body.eval n (r :: locks) s rv.generator with ⟨o, s1, e1⟩
            rw [hev] at h
            simp [hl] at h
            obtain ⟨h1, h2, h3⟩ := h
            simp only [fromScratchEval, hc]
            exact ihb (r :: locks) s rv.generator v s1 e1 hs
              (compFree_generator hs hc) (by rw [hev, h1])
    · intro locks s b v s2 ev hs hb h
      cases b with
      | lit n0 =>
        simp [Body.eval] at h
        simp [fromScratchBody, h.1]
      | getN r =>
        simp only [Body.eval] at h
        simp only [fromScratchBody]
        exact ihg locks s r v s2 ev hs h
      | add b1 b2 =>
        simp [Body.compFree] at hb
        obtain ⟨hb1, hb2⟩ := hb
        simp only [Body.eval] at h
        rcases hev1 : Body.eval n locks s b1 with ⟨o1, s1, e1⟩
        rw [hev1] at h
        cases o1 with
        | error p => simp at h
        | ok n1 =>
          have hs1 : s1 = s := by
            have hf := (eval_compFree_frame n).2 locks s b1 hs hb1
            rw [hev1] at hf; exact hf
          subst hs1
          simp only at h
          rcases hev2 : Body.eval n locks s1 b2 with ⟨o2, s2b, e2⟩
          rw [hev2] at h
          cases o2 with
          | error p => simp at h
          | ok n2 =>
            simp at h
            obtain ⟨hv, hs2, hev3⟩ := h
            have q1 := ihb locks s1 b1 n1 s1 e1 hs hb1 hev1
            have q2 := ihb locks s1 b2 n2 s2b e2 hs hb2 hev2
            simp [fromScratchBody, q1, q2, hv]
      | mul b1 b2 =>
        simp [Body.compFree] at hb
        obtain ⟨hb1, hb2⟩ := hb
        simp only [Body.eval] at h
        rcases hev1 : Body.eval n locks s b1 with ⟨o1, s1, e1⟩
        rw [hev1] at h
        cases o1 with
        | error p => simp at h
        | ok n1 =>
          have hs1 : s1 = s := by
            have hf := (eval_compFree_frame n).2 locks s b1 hs hb1
            rw [hev1] at hf; exact hf
          subst hs1
          simp only at h
          rcases hev2 : Body.eval n locks s1 b2 with ⟨o2, s2b, e2⟩
          rw [hev2] at h
          cases o2 with
          | error p => simp at h
          | ok n2 =>
            simp at h
            obtain ⟨hv, hs2, hev3⟩ := h
            have q1 := ihb locks s1 b1 n1 s1 e1 hs hb1 hev1
            have q2 := ihb locks s1 b2 n2 s2b e2 hs hb2 hev2
            simp [fromScratchBody, q1, q2, hv]
      | comp b1 b2 => simp [Body.compFree] at hb

/-- C3: read consistency.  Whenever a top-level `Node::get` returns a value,
that value is exactly what a from-scratch re-evaluation of the node's closure
chain — reading only the current (latest-`set`) values of Base cells — yields
on the current state; this code's `get` literally performs that from-scratch
evaluation on every call.  Stated for graphs whose stored closures do not
allocate nodes (the shape of every closure in the repository and in the
specification's model); the state `s` is arbitrary, in particular any state
produced by earlier interleaved `set` calls. -/
theorem C3_read_consistency (fuel : Nat) (s : InternalGraph) (r : ValueRef)
    (v : Int) (s2 : InternalGraph) (ev : List Event)
    (hcf : s.compFree = true)
    (h : Node.get fuel [] s r = (.ok v, s2, ev)) :
    fromScratchEval fuel s r = some v :=
  (eval_fromScratch fuel).1 [] s r v s2 ev hcf h

/-- Witness for C3 at a concrete input: after `a.set(2)` on the diamond,
`e.get()` returns 48 and the from-scratch evaluation of node `e` on the
post-`set` state is also 48. -/
theorem C3_witness :
    fromScratchEval 99 stSet 4 = some 48 :=
  C3_read_consistency 99 stSet 4 48 (Node.get 99 [] stSet 4).2.1
    (Node.get 99 [] stSet 4).2.2 (by decide) (by decide)


end DynamicGraph
